import Mathlib

/-!
Verification of the merge-detection core of `git-branch-cleanup`
(`cmd/main.go`), against its natural-language specification.

Go strings are modelled as lists of characters (`Str`); the external
`git` queries are modelled as an oracle record (`GitRepo`); the external
string-similarity library is modelled from the spec as an exact
rational-valued Jaro-Winkler similarity.  Machine `float32` similarity
scores are modelled as exact rationals: every claim we settle depends only
on score comparisons that are exact in both arithmetics (equality with 1,
comparison with 0, strict maxima of identical values).
-/

namespace GitBranchCleanup

/-- A Go string, modelled as its list of characters. -/
abbrev Str := List Char

/-! ## Diff normalizer (`removeGitShaFromGitDiff`, main.go lines 87-109)

The Go function splits the diff on `"\n"`, applies four anchored regexp
replacements to every line (in order: the modify-index rule, the new-file
rule, the delete-file rule, the hunk-header rule), joins the lines with
`"\n"` and appends a final `"\n"`. -/

/-- `[0-9a-f]`: a lowercase hexadecimal digit, as in the Go regexps. -/
def isHexLower (c : Char) : Bool := c.isDigit || ('a' ≤ c && c ≤ 'f')

/-- Consume an exact literal from the front of a character list
(a literal regexp fragment); `none` if it does not match. -/
def dropLit : Str → Str → Option Str
  | [], cs => some cs
  | _ :: _, [] => none
  | p :: ps, c :: cs => if c = p then dropLit ps cs else none

/-- Consume exactly `n` characters satisfying `p` from the front;
`none` if fewer match (a `{n}`-counted regexp class). -/
def dropCount (p : Char → Bool) : Nat → Str → Option Str
  | 0, cs => some cs
  | _ + 1, [] => none
  | n + 1, c :: cs => if p c then dropCount p n cs else none

/-- No newline occurs in the list: Go regexp `.` (and an anchored `$`)
never matches across a newline. -/
def noNl (l : Str) : Bool := l.all (fun c => !(c = '\n'))

/-- Matcher for `indexRegxp`, Go regexp
`^index [0-9a-f]{8}\.\.[0-9a-f]{8} ([0-9]{6})$`; returns the captured
six-digit mode on a (whole-line) match. -/
def matchIndexFull (l : Str) : Option Str :=
  match dropLit "index ".data l with
  | none => none
  | some cs =>
    match dropCount isHexLower 8 cs with
    | none => none
    | some cs =>
      match dropLit "..".data cs with
      | none => none
      | some cs =>
        match dropCount isHexLower 8 cs with
        | none => none
        | some cs =>
          match dropLit " ".data cs with
          | none => none
          | some mode =>
            if mode.length = 6 ∧ mode.all Char.isDigit = true then some mode else none

/-- Replacement text `index zzzzzzzz..zzzzzzzz ` (the captured mode is
appended). -/
def idxMask : Str := "index zzzzzzzz..zzzzzzzz ".data

/-- First replacement: `indexRegxp.ReplaceAllString(l, "index zzzzzzzz..zzzzzzzz $1")`. -/
def indexReplace (l : Str) : Str :=
  match matchIndexFull l with
  | some mode => idxMask ++ mode
  | none => l

/-- Matcher for `indexRegxpNewFile`, Go regexp `^index 0{8}\.\..*$`. -/
def newFileTest (l : Str) : Bool :=
  match dropLit "index 00000000..".data l with
  | some rest => noNl rest
  | none => false

/-- Replacement text for the new-file rule. -/
def nfMask : Str := "index 00000000..zzzzzzzz".data

/-- Second replacement: `indexRegxpNewFile.ReplaceAllString(l, "index 00000000..zzzzzzzz")`. -/
def newFileReplace (l : Str) : Str :=
  if newFileTest l then nfMask else l

/-- Matcher for `indexRegxpDeleteFile`, Go regexp `^index [0-9a-f]{8}\.\..*$`.
Note the destination hash is NOT constrained to be zero: any line of the
form `index <8 hex>..<anything>` matches. -/
def delFileTest (l : Str) : Bool :=
  match dropLit "index ".data l with
  | none => false
  | some cs =>
    match dropCount isHexLower 8 cs with
    | none => false
    | some cs =>
      match dropLit "..".data cs with
      | none => false
      | some rest => noNl rest

/-- Replacement text for the delete-file rule. -/
def dfMask : Str := "index zzzzzzzz..00000000".data

/-- Third replacement: `indexRegxpDeleteFile.ReplaceAllString(l, "index zzzzzzzz..00000000")`. -/
def delFileReplace (l : Str) : Str :=
  if delFileTest l then dfMask else l

/-- Matcher for `changeLocation`, Go regexp `^@@ [^@]* @@` (not anchored at
the end).  A match decomposes the line as `"@@ " ++ t ++ "@@" ++ rest`
where `t` is the maximal run of non-`@` characters after `"@@ "` and `t`
ends in a space (so `[^@]*` matches `t` minus its final space, and the
literal `" @@"` follows).  Returns the unmatched tail `rest`. -/
def hunkSplit (l : Str) : Option Str :=
  match l with
  | a :: b :: sp :: cs =>
    if a = '@' ∧ b = '@' ∧ sp = ' ' then
      if cs.takeWhile (fun c => !(c = '@')) ≠ [] ∧
          (cs.takeWhile (fun c => !(c = '@'))).getLast? = some ' ' then
        match cs.dropWhile (fun c => !(c = '@')) with
        | x :: y :: rest => if x = '@' ∧ y = '@' then some rest else none
        | _ => none
      else none
    else none
  | _ => none

/-- Replacement text for the hunk-header rule. -/
def hunkMask : Str := "@@ ... @@".data

/-- Fourth replacement: `changeLocation.ReplaceAllString(l, "@@ ... @@")`. -/
def hunkReplace (l : Str) : Str :=
  match hunkSplit l with
  | some rest => hunkMask ++ rest
  | none => l

/-- One line of `removeGitShaFromGitDiff`'s loop: the four replacements,
applied in program order. -/
def normalizeLine (l : Str) : Str :=
  hunkReplace (delFileReplace (newFileReplace (indexReplace l)))

/-- `strings.Split(s, "\n")`: split on newline separators, keeping empty
pieces. -/
def splitNl : Str → List Str
  | [] => [[]]
  | c :: rest =>
    if c = '\n' then [] :: splitNl rest
    else
      match splitNl rest with
      | [] => [[c]]
      | l :: ls => (c :: l) :: ls

/-- `strings.Join(lines, "\n")`. -/
def joinNl : List Str → Str
  | [] => []
  | [l] => l
  | l :: ls => l ++ '\n' :: joinNl ls

/-- The diff normalizer `removeGitShaFromGitDiff` (main.go lines 99-109):
split on newlines, normalize every line, join, and append a final
newline. -/
def removeGitShaFromGitDiff (gitDiff : Str) : Str :=
  joinNl ((splitNl gitDiff).map normalizeLine) ++ ['\n']

/-! ## Jaro-Winkler similarity

Modelled from the spec: the subject/diff similarity called by `findMerged`
(`beda.NewStringDiff(a, b).JaroWinklerDistance(0.1)`) lives in the external
library `github.com/hyperjumptech/beda`, which is not part of this
repository's sources.  The spec describes it as "a prefix-weighted
string-similarity score in [0,1], favoring common prefixes"
(Jaro-Winkler, prefix weight 0.1).  We model it as the textbook
Jaro-Winkler similarity in exact rational arithmetic; Jaro-Winkler of a
string with itself is exactly 1, which the model takes as a fast path. -/

/-- Search for a usable match at indices `j, j+1, ...`, trying `n`
positions (structural recursion on the count, so that the kernel can
evaluate it). -/
def findSlotAux (c : Char) (s2 : Str) (used : List Bool) : Nat → Nat → Option Nat
  | _, 0 => none
  | j, n + 1 =>
    match s2[j]?, used[j]? with
    | some d, some u =>
      if d = c ∧ u = false then some j
      else findSlotAux c s2 used (j + 1) n
    | _, _ => none

/-- First index `j` with `lo ≤ j ≤ hi`, `s2[j] = c` and `j` not yet
used (the in-window match search of the Jaro algorithm). -/
def findSlot (c : Char) (s2 : Str) (used : List Bool) (j hi : Nat) : Option Nat :=
  findSlotAux c s2 used j (hi + 1 - j)

/-- One pass of Jaro matching: for each character of `s1` (at index `i`),
find an unused matching character of `s2` within the window `[i-w, i+w]`;
returns the matched characters of `s1` in order together with the final
usage mask over `s2`. -/
def jaroPass (s2 : Str) (w : Nat) : Str → Nat → List Bool → List Char × List Bool
  | [], _, used => ([], used)
  | c :: cs, i, used =>
    match findSlot c s2 used (i - w) (i + w) with
    | some j =>
      let r := jaroPass s2 w cs (i + 1) (used.set j true)
      (c :: r.1, r.2)
    | none => jaroPass s2 w cs (i + 1) used

/-- The characters of `s2` selected by the usage mask, in `s2` order. -/
def maskFilter (s2 : Str) (used : List Bool) : List Char :=
  (s2.zip used).filterMap (fun p => if p.2 then some p.1 else none)

/-- Number of positions at which the two matched sequences disagree
(twice the Jaro transposition count). -/
def mismatches : List Char → List Char → Nat
  | a :: as, b :: bs => (if a = b then 0 else 1) + mismatches as bs
  | _, _ => 0

/-- The Jaro similarity of two strings, in exact rational arithmetic.
With `m` matching characters, `tr` mismatched positions among the matched
sequences (twice the transposition count) and lengths `l1`, `l2`, the
textbook value `(m/l1 + m/l2 + (m - tr/2)/m) / 3` equals
`(2*m*m*(l1+l2) + (2*m - tr)*l1*l2) / (6*l1*l2*m)`, which we build with
`mkRat` directly (`tr ≤ m`, so the numerator is a natural number). -/
def jaroSim (s1 s2 : Str) : ℚ :=
  if s1 = s2 then 1
  else
    let w := max s1.length s2.length / 2 - 1
    let pr := jaroPass s2 w s1 0 (List.replicate s2.length false)
    let m1 := pr.1
    let m2 := maskFilter s2 pr.2
    let m : Nat := m1.length
    if m = 0 then 0
    else
      let tr := mismatches m1 m2
      let l1 := s1.length
      let l2 := s2.length
      mkRat (2 * m * m * (l1 + l2) + (2 * m - tr) * (l1 * l2)) (6 * (l1 * l2) * m)

/-- Length of the common leading run of two strings. -/
def commonStart : Str → Str → Nat
  | a :: as, b :: bs => if a = b then commonStart as bs + 1 else 0
  | _, _ => 0

/-- Jaro-Winkler similarity with prefix weight 0.1 (the detector always
calls `JaroWinklerDistance(0.1)`), prefix length capped at 4: with `j`
the Jaro similarity and `l` the capped common-leading-run length,
`j + l * 0.1 * (1 - j)` equals `((10 - l)*j + l) / 10`, built with
`mkRat` from the numerator and denominator of `j`. -/
def jaroWinkler (s1 s2 : Str) : ℚ :=
  let j := jaroSim s1 s2
  let l := min (commonStart s1 s2) 4
  mkRat ((10 - l : Nat) * j.num + l * j.den) (10 * j.den)

/-! ## Git oracle, commit fingerprints and the fingerprint cache
(`getCommitDiff`, main.go lines 111-143)

The external `git` queries of the Plumbing Adapter are modelled as an
oracle record; `none` models a query that fails (nonzero exit).  The
oracle hands back exactly what the corresponding Go wrapper returns:
`showDiffOnly` is `getCommitDiffOnly` (the diff part of `git show`,
trimmed), `subject` is `getCommitSubject`, `log` is `getCommits` (the
non-empty trimmed lines of `git log --format=%H start..end`, newest
first), `diff` is `getGitDiff` (trimmed `git diff start..end`). -/

structure GitRepo where
  mergeBase : Str → Str → Option Str
  revParse : Str → Option Str
  log : Str → Str → Option (List Str)
  showDiffOnly : Str → Option Str
  subject : Str → Option Str
  diff : Str → Str → Option Str

/-- The `CommitDiff` struct of main.go: sha, subject, normalized diff. -/
structure CommitDiff where
  Sha : Str
  Subject : Str
  Diff : Str
deriving DecidableEq

/-- The global `CommitDiffCache` map, modelled as an association list. -/
abbrev Cache := List (Str × CommitDiff)

/-- Map lookup in the cache. -/
def cacheFind (cache : Cache) (k : Str) : Option CommitDiff :=
  match cache with
  | [] => none
  | (k', v) :: rest => if k' = k then some v else cacheFind rest k

/-- The fingerprint `getCommitDiff` computes for a sha on a cache miss:
the diff-only text of the commit (failing if that query fails),
normalized, plus the commit subject (failing if that query fails). -/
def fpOf (repo : GitRepo) (commit : Str) : Option CommitDiff :=
  match repo.showDiffOnly commit with
  | none => none
  | some gitDiff =>
    match repo.subject commit with
    | none => none
    | some subj => some ⟨commit, subj, removeGitShaFromGitDiff gitDiff⟩

/-- `getCommitDiff` (main.go lines 119-143): consult the cache first; on a
miss, fingerprint the commit and cache the result.  Returns the result,
the updated cache, and the number of adapter queries issued (0 on a hit;
1 if the commit-show query failed; 2 otherwise). -/
def getCommitDiff (repo : GitRepo) (cache : Cache) (commit : Str) :
    Option CommitDiff × Cache × Nat :=
  match cacheFind cache commit with
  | some cd => (some cd, cache, 0)
  | none =>
    match repo.showDiffOnly commit with
    | none => (none, cache, 1)
    | some gitDiff =>
      match repo.subject commit with
      | none => (none, cache, 2)
      | some subj =>
        let cd : CommitDiff := ⟨commit, subj, removeGitShaFromGitDiff gitDiff⟩
        (some cd, (commit, cd) :: cache, 2)

/-- Every cache entry is the fingerprint the repository would produce for
its key (true of the real global cache, which is only ever filled by
`getCommitDiff` itself within one run). -/
def CacheOK (repo : GitRepo) (cache : Cache) : Prop :=
  ∀ s cd, cacheFind cache s = some cd → fpOf repo s = some cd

/-! ## The merge detector (`findMerged`, main.go lines 167-290) -/

/-- The `PotentialMerge` struct of main.go. -/
structure PotentialMerge where
  Branch : Str
  MergedSha : Str
  Merged : Bool
  SubjectScore : ℚ
  DiffScore : ℚ
  DiffSize : Nat
  NumCommits : Nat
  DiffCmd : Str
deriving DecidableEq

/-- Outcome of `findMerged`: a Go panic, an error return `(nil, err)`,
or a normal return `(r, nil)` with `r` possibly nil. -/
inductive FMOut where
  | crash (msg : Str)
  | fail
  | ok (r : Option PotentialMerge)
deriving DecidableEq

/-- The `DiffCmd` string of the single-commit verdict:
`meld <(git show <branch>) <(git show <sha>)`. -/
def meldShowCmd (branch sha : Str) : Str :=
  "meld <(git show ".data ++ branch ++ ") <(git show ".data ++ sha ++ ")".data

/-- The `DiffCmd` string of the multi-commit verdict:
`meld <(git --no-pager diff <base>..<branch>) <(git --no-pager diff <sha>^..<sha>)`. -/
def meldDiffCmd (base branch sha : Str) : Str :=
  "meld <(git --no-pager diff ".data ++ base ++ "..".data ++ branch ++
    ") <(git --no-pager diff ".data ++ sha ++ "^..".data ++ sha ++ ")".data

/-- The best-match loop of `findMerged` (lines 229-243), with the cache
threaded through `getCommitDiff`: fingerprint every trunk commit, score
its subject against the candidate's representative subject, and keep the
first commit achieving the strictly highest score.  Returns the cache
and, unless a fingerprint query failed, the final
`(highestSubjectScore, highestDiff)` pair. -/
def trunkScan (repo : GitRepo) (branchSubj : Str) :
    List Str → Cache → ℚ → Option CommitDiff → Cache × Option (ℚ × Option CommitDiff)
  | [], cache, hs, hd => (cache, some (hs, hd))
  | commit :: rest, cache, hs, hd =>
    match getCommitDiff repo cache commit with
    | (none, cache', _) => (cache', none)
    | (some cd, cache', _) =>
      let score := jaroWinkler branchSubj cd.Subject
      if score > hs then trunkScan repo branchSubj rest cache' score (some cd)
      else trunkScan repo branchSubj rest cache' hs hd

/-- Cache-free specification of the best-match loop (used to state
properties; `trunkScan` computes exactly this when the cache is
coherent). -/
def bestMatch (repo : GitRepo) (branchSubj : Str) :
    List Str → ℚ → Option CommitDiff → Option (ℚ × Option CommitDiff)
  | [], hs, hd => some (hs, hd)
  | commit :: rest, hs, hd =>
    match fpOf repo commit with
    | none => none
    | some cd =>
      let score := jaroWinkler branchSubj cd.Subject
      if score > hs then bestMatch repo branchSubj rest score (some cd)
      else bestMatch repo branchSubj rest hs hd

/-- The tail of `findMerged` after the best-match loop (lines 245-289).
`branchCommits` are the candidate's new commits, `branchDiff` the
representative fingerprint, `combinedDiff` the raw combined diff of the
candidate (empty for a single-commit branch).  The empty combined diff
selects the single-commit comparison; a non-single commit count there is
the `panic("expected single commit")`. -/
def postScan (repo : GitRepo) (branch base : Str) (branchCommits : List Str)
    (branchDiff : CommitDiff) (combinedDiff : Str) :
    ℚ × Option CommitDiff → FMOut
  | (_, none) => .ok none
  | (hs, some highestDiff) =>
    if combinedDiff = [] then
      let diffScore := jaroWinkler branchDiff.Diff highestDiff.Diff
      if branchCommits.length = 1 then
        .ok (some { Branch := branch, MergedSha := branchDiff.Sha, Merged := false,
                    SubjectScore := hs, DiffScore := diffScore,
                    DiffSize := branchDiff.Diff.length, NumCommits := 1,
                    DiffCmd := meldShowCmd branch highestDiff.Sha })
      else .crash "expected single commit".data
    else
      match repo.diff (highestDiff.Sha ++ "^".data) highestDiff.Sha with
      | none => .fail
      | some trunkCombined =>
        let diffScore := jaroWinkler trunkCombined combinedDiff
        .ok (some { Branch := branch, MergedSha := branchDiff.Sha, Merged := false,
                    SubjectScore := hs, DiffScore := diffScore,
                    DiffSize := trunkCombined.length,
                    NumCommits := branchCommits.length,
                    DiffCmd := meldDiffCmd base branch highestDiff.Sha })

/-- `findMerged` (main.go lines 178-290), over the git oracle, threading
the global fingerprint cache.  Faithful to the source: merge base, then
rev-parse; equal means the exact (cleanly merged) verdict; otherwise list
the candidate's new commits (empty is a panic), fingerprint the first
one, compute the raw combined diff when there is more than one commit,
list the trunk commits, run the best-match loop, and dispatch on its
outcome (`highestCombinedDiff` equals the pre-loop combined diff exactly
when a best match was recorded, since the loop never changes
`combinedDiff`). -/
def findMerged (repo : GitRepo) (cache : Cache) (currentBranch branch : Str) :
    FMOut × Cache :=
  match repo.mergeBase currentBranch branch with
  | none => (.fail, cache)
  | some base =>
    match repo.revParse branch with
    | none => (.fail, cache)
    | some branchSha =>
      if base = branchSha then
        (.ok (some { Branch := branch, MergedSha := base, Merged := true,
                     SubjectScore := 1, DiffScore := 1, DiffSize := 0,
                     NumCommits := 0, DiffCmd := [] }), cache)
      else
        match repo.log base branch with
        | none => (.fail, cache)
        | some [] =>
          (.crash "branchCommits is empty, but if base == branchSha check didnt catch this".data,
           cache)
        | some (b0 :: brest) =>
          match getCommitDiff repo cache b0 with
          | (none, cache1, _) => (.fail, cache1)
          | (some branchDiff, cache1, _) =>
            match (if brest = [] then some ([] : Str) else repo.diff base branch) with
            | none => (.fail, cache1)
            | some combinedDiff =>
              match repo.log base currentBranch with
              | none => (.fail, cache1)
              | some commits =>
                match trunkScan repo branchDiff.Subject commits cache1 0 none with
                | (cache2, none) => (.fail, cache2)
                | (cache2, some res) =>
                  (postScan repo branch base (b0 :: brest) branchDiff combinedDiff res,
                   cache2)

/-! ## The report/action driver (per-branch logic of `main`, lines 342-385)

The decision taken for one branch, as a pure function of the parsed
options and the detection result.  `Opts` mirrors the `opts` struct; the
`Perfect` field is present (and parsed by the real program) but, exactly
as in main.go, never consulted by the per-branch logic. -/

structure Opts where
  Verbose : Bool
  Version : Bool
  Perfect : Bool
  MinSubjectScore : ℚ
  MinDiffScore : ℚ

/-- What the driver does/prints for one branch. -/
inductive DriverEvent where
  /-- the branch is the current (trunk) branch: skipped -/
  | skippedCurrent
  /-- `Merged` verdict: print "cleanly merged" and delete the branch -/
  | cleanlyMergedDelete (branch sha : Str)
  /-- perfect diff match above thresholds: print "was merged" and delete -/
  | mergedDelete (branch sha : Str)
  /-- imperfect match above thresholds: print the "**potentially** merged"
  advisory block with the manual diff and delete commands -/
  | potentiallyMerged (branch sha : Str) (numCommits : Nat) (diffCmd : Str)
  /-- no verdict, or scores below thresholds: no output -/
  | silent
deriving DecidableEq

/-- The per-branch driver logic of `main` (lines 342-385): skip the
current branch; no verdict means no output; an exact verdict is deleted
as cleanly merged; above both score thresholds, a perfect diff match
(diff score exactly 1 and diff size over 10) is deleted, anything else
gets the advisory "potentially merged" output. -/
def processBranch (o : Opts) (currentBranch branch : Str)
    (pm : Option PotentialMerge) : DriverEvent :=
  if branch = currentBranch then .skippedCurrent
  else
    match pm with
    | none => .silent
    | some p =>
      if p.Merged then .cleanlyMergedDelete branch p.MergedSha
      else if p.SubjectScore > o.MinSubjectScore ∧ p.DiffScore > o.MinDiffScore then
        if p.DiffScore = 1 ∧ p.DiffSize > 10 then .mergedDelete branch p.MergedSha
        else .potentiallyMerged branch p.MergedSha p.NumCommits p.DiffCmd
      else .silent

/-! ## Result accessors and concrete test repositories

Small accessors used to state claims, and concrete oracle instances used
as counterexamples and witnesses.  Shas and branch names are abbreviated
strings; the oracles answer exactly the queries `findMerged` issues. -/

/-- The diff similarity of a returned verdict, if any. -/
def FMOut.diffScoreOf : FMOut → Option ℚ
  | .ok (some p) => some p.DiffScore
  | _ => none

/-- The `MergedSha` of a returned verdict, if any. -/
def FMOut.mergedShaOf : FMOut → Option Str
  | .ok (some p) => some p.MergedSha
  | _ => none

/-- A repository where the candidate `feat` has exactly one new commit
`c1` since the merge base `b`, and trunk `main` has one commit `t1` with
the same subject and the same commit diff (a rebase-merge). -/
def repoSingle : GitRepo := {
  mergeBase := fun _ _ => some "b".data
  revParse := fun _ => some "c1".data
  log := fun _ e => if e = "feat".data then some ["c1".data]
                    else if e = "main".data then some ["t1".data] else none
  showDiffOnly := fun _ => some "d".data
  subject := fun _ => some "fix login bug".data
  diff := fun _ _ => none }

/-- A repository where the candidate `feat` has two new commits
(newest first: `c2`, then `c1`) since the merge base `b`; trunk has one
commit `t1` with the same subject as `c2`, and the combined diff
`b..feat` equals the combined diff `t1^..t1` (a squash-merge). -/
def repoMulti : GitRepo := {
  mergeBase := fun _ _ => some "b".data
  revParse := fun _ => some "c2".data
  log := fun _ e => if e = "feat".data then some ["c2".data, "c1".data]
                    else if e = "main".data then some ["t1".data] else none
  showDiffOnly := fun _ => some "d".data
  subject := fun _ => some "s".data
  diff := fun s _ => if s = "b".data then some "+p".data
                     else if s = "t1^".data then some "+p".data else none }

/-- The combined diff `b..feat` in `repoHunk`. -/
def hunkDiffA : Str := "@@ -1,2 +1,2 @@ q\n+p".data

/-- The combined diff `t1^..t1` in `repoHunk`: identical to `hunkDiffA`
except for the hunk-header line numbers, so the two normalize equal. -/
def hunkDiffB : Str := "@@ -3,4 +3,4 @@ q\n+p".data

/-- Like `repoMulti`, but the two combined diffs differ only in their
hunk-header line numbers (identical content, shifted offsets). -/
def repoHunk : GitRepo := {
  mergeBase := fun _ _ => some "b".data
  revParse := fun _ => some "c2".data
  log := fun _ e => if e = "feat".data then some ["c2".data, "c1".data]
                    else if e = "main".data then some ["t1".data] else none
  showDiffOnly := fun _ => some "d".data
  subject := fun _ => some "s".data
  diff := fun s _ => if s = "b".data then some hunkDiffA
                     else if s = "t1^".data then some hunkDiffB else none }

/-- Like `repoSingle`, but the trunk commit's subject (`zzz`) shares no
character with the candidate's subject (`aaa`): subject similarity 0. -/
def repoNoSim : GitRepo := {
  mergeBase := fun _ _ => some "b".data
  revParse := fun _ => some "c1".data
  log := fun _ e => if e = "feat".data then some ["c1".data]
                    else if e = "main".data then some ["t1".data] else none
  showDiffOnly := fun _ => some "d".data
  subject := fun c => if c = "c1".data then some "aaa".data else some "zzz".data
  diff := fun _ _ => none }

/-- A two-commit candidate whose cumulative diff `b..feat` is the empty
string (the branch's commits cancel out). -/
def repoEmptyDiff : GitRepo := {
  mergeBase := fun _ _ => some "b".data
  revParse := fun _ => some "c2".data
  log := fun _ e => if e = "feat".data then some ["c2".data, "c1".data]
                    else if e = "main".data then some ["t1".data] else none
  showDiffOnly := fun _ => some "d".data
  subject := fun _ => some "s".data
  diff := fun _ _ => some [] }

/-- A repository where the candidate's tip equals the merge base
(cleanly merged, nothing new). -/
def repoExact : GitRepo := {
  mergeBase := fun _ _ => some "m".data
  revParse := fun _ => some "m".data
  log := fun _ _ => none
  showDiffOnly := fun _ => none
  subject := fun _ => none
  diff := fun _ _ => none }

/-- A fuzzy verdict above both default thresholds but with an imperfect
diff score (19/20): per the spec, `--perfect` should suppress its
advisory output. -/
def pmImperfect : PotentialMerge := {
  Branch := "feat".data
  MergedSha := "t9".data
  Merged := false
  SubjectScore := mkRat 19 20
  DiffScore := mkRat 19 20
  DiffSize := 50
  NumCommits := 1
  DiffCmd := "cmd".data }

/-- Options with `--perfect` set and the default thresholds (0.9). -/
def optsPerfect : Opts := {
  Verbose := false
  Version := false
  Perfect := true
  MinSubjectScore := mkRat 9 10
  MinDiffScore := mkRat 9 10 }

/-- The verdict `findMerged` returns for `repoSingle` (used as a witness
instantiation): the representative is the branch commit `c1`, the best
trunk match is `t1`, both similarities are 1. -/
def pmSingleOut : PotentialMerge := {
  Branch := "feat".data
  MergedSha := "c1".data
  Merged := false
  SubjectScore := 1
  DiffScore := 1
  DiffSize := 2
  NumCommits := 1
  DiffCmd := meldShowCmd "feat".data "t1".data }

/-! # Theorems -/

/-- Jaro-Winkler similarity of a string with itself is exactly 1. -/
theorem jaroWinkler_self (s : Str) : jaroWinkler s s = 1 := by
  have hl : min (commonStart s s) 4 ≤ 4 := min_le_right _ _
  have h1 : jaroSim s s = 1 := by simp [jaroSim]
  simp only [jaroWinkler, h1]
  have h2 : ((10 - min (commonStart s s) 4 : Nat) : Int) * (1 : ℚ).num
      + (min (commonStart s s) 4 : Nat) * ((1 : ℚ).den : Int) = 10 := by
    show ((10 - min (commonStart s s) 4 : Nat) : Int) * 1
      + (min (commonStart s s) 4 : Nat) * 1 = 10
    omega
  rw [h2]
  decide

/-! ## Fingerprint-cache lemmas -/

/-- A fingerprint's `Sha` field is the sha it was computed for. -/
theorem fpOf_sha (repo : GitRepo) (c : Str) (cd : CommitDiff)
    (h : fpOf repo c = some cd) : cd.Sha = c := by
  unfold fpOf at h
  cases hs : repo.showDiffOnly c with
  | none => rw [hs] at h; exact absurd h (by simp)
  | some gd =>
    rw [hs] at h
    cases hsub : repo.subject c with
    | none => rw [hsub] at h; exact absurd h (by simp)
    | some subj =>
      rw [hsub] at h
      cases h
      rfl

/-- Under a coherent cache, `getCommitDiff` returns exactly the
recomputed fingerprint, and coherence is preserved. -/
theorem getCommitDiff_of_cacheOK (repo : GitRepo) (cache : Cache) (c : Str)
    (hok : CacheOK repo cache) :
    (getCommitDiff repo cache c).1 = fpOf repo c ∧
      CacheOK repo (getCommitDiff repo cache c).2.1 := by
  unfold getCommitDiff
  cases hc : cacheFind cache c with
  | some v => exact ⟨(hok c v hc).symm, hok⟩
  | none =>
    unfold fpOf
    cases hs : repo.showDiffOnly c with
    | none => exact ⟨rfl, hok⟩
    | some gd =>
      cases hsub : repo.subject c with
      | none => exact ⟨rfl, hok⟩
      | some subj =>
        refine ⟨rfl, ?_⟩
        intro s cd hfind
        by_cases heq : c = s
        · subst heq
          simp only [cacheFind, if_pos rfl] at hfind
          cases hfind
          unfold fpOf
          rw [hs, hsub]
        · simp only [cacheFind, if_neg heq] at hfind
          exact hok s cd hfind

/-- C9: after a successful fingerprint lookup, looking the same sha up
again against the returned cache yields the identical `CommitDiff`
value, leaves the cache unchanged, and issues zero further adapter
queries (the commit-show and commit-subject queries are never re-run
for a sha that was successfully fingerprinted). -/
theorem c9_fingerprint_cache (repo : GitRepo) (cache : Cache) (commit : Str)
    (cd : CommitDiff) (cache' : Cache) (n : Nat)
    (h : getCommitDiff repo cache commit = (some cd, cache', n)) :
    getCommitDiff repo cache' commit = (some cd, cache', 0) := by
  unfold getCommitDiff at h ⊢
  cases hc : cacheFind cache commit with
  | some v =>
    rw [hc] at h
    simp only [Prod.mk.injEq, Option.some.injEq] at h
    obtain ⟨rfl, rfl, -⟩ := h
    rw [hc]
  | none =>
    rw [hc] at h
    cases hs : repo.showDiffOnly commit with
    | none => rw [hs] at h; exact absurd h (by simp)
    | some gd =>
      rw [hs] at h
      cases hsub : repo.subject commit with
      | none => rw [hsub] at h; exact absurd h (by simp)
      | some subj =>
        rw [hsub] at h
        simp only [Prod.mk.injEq, Option.some.injEq] at h
        obtain ⟨rfl, hcache, -⟩ := h
        rw [← hcache]
        simp [cacheFind]

/-- Witness for C9: in `repoSingle`, fingerprinting `c1` from an empty
cache costs two adapter queries; the repeated lookup returns the
identical value at zero queries. -/
theorem c9_fingerprint_cache_witness :
    getCommitDiff repoSingle
        [("c1".data, ⟨"c1".data, "fix login bug".data, ['d', '\n']⟩)] "c1".data
      = (some ⟨"c1".data, "fix login bug".data, ['d', '\n']⟩,
         [("c1".data, ⟨"c1".data, "fix login bug".data, ['d', '\n']⟩)], 0) :=
  c9_fingerprint_cache repoSingle [] "c1".data
    ⟨"c1".data, "fix login bug".data, ['d', '\n']⟩
    [("c1".data, ⟨"c1".data, "fix login bug".data, ['d', '\n']⟩)] 2 (by decide)

/-! ## Driver (C3) -/

/-- C3 (code bug): with `--perfect` set and an imperfect verdict above
both default thresholds (subject and diff similarity 19/20, diff size
50), the driver still produces the "potentially merged" advisory output:
the `Perfect` option is parsed but never consulted by the per-branch
logic, so nothing is suppressed. -/
theorem c3_perfect_flag_ignored :
    optsPerfect.Perfect = true ∧
    pmImperfect.DiffScore ≠ 1 ∧
    processBranch optsPerfect "main".data "feat".data (some pmImperfect)
      = .potentiallyMerged "feat".data "t9".data 1 "cmd".data := by decide

/-! ## Diff-normalizer claims (C7) -/

/-- C7 (code bug): a new-file index line (source hash all zero) and a
deleted-file index line (destination hash all zero) normalize to the
SAME placeholder line `index zzzzzzzz..00000000`: the delete-file regexp
(which does not require the destination to be zero) also rewrites the
already-masked new-file replacement, losing the new-vs-deleted
distinction. -/
theorem c7_new_delete_collapsed :
    removeGitShaFromGitDiff "index 00000000..eb2f469c".data
      = removeGitShaFromGitDiff "index edfb5027..00000000".data ∧
    removeGitShaFromGitDiff "index edfb5027..00000000".data
      = "index zzzzzzzz..00000000\n".data := by decide

/-! ## Panic on an empty multi-commit combined diff (C10) -/

/-- C10: in `repoEmptyDiff` the candidate has two commits since the
merge base but its cumulative diff `b..feat` is the empty string; the
empty combined diff selects the single-commit code path, whose commit
count check panics with "expected single commit" instead of returning a
verdict or an error. -/
theorem c10_empty_combined_diff_panics :
    repoEmptyDiff.log "b".data "feat".data = some ["c2".data, "c1".data] ∧
    repoEmptyDiff.diff "b".data "feat".data = some [] ∧
    (findMerged repoEmptyDiff [] "main".data "feat".data).1
      = .crash "expected single commit".data := by decide

/-! ## The exact path (C4) -/

/-- C4: whenever the candidate's resolved tip sha equals the merge base,
`findMerged` returns the exact verdict (`Merged = true`, both scores 1,
zero commits) with zero diff size and an empty comparison command, and
leaves the cache untouched — the result is fully determined by the
merge-base and rev-parse queries alone, so no trunk-commit comparison is
performed. -/
theorem c4_exact_when_tip_is_base (repo : GitRepo) (cache : Cache)
    (currentBranch branch s : Str)
    (hmb : repo.mergeBase currentBranch branch = some s)
    (hrp : repo.revParse branch = some s) :
    findMerged repo cache currentBranch branch =
      (.ok (some { Branch := branch
                   MergedSha := s
                   Merged := true
                   SubjectScore := 1
                   DiffScore := 1
                   DiffSize := 0
                   NumCommits := 0
                   DiffCmd := [] }), cache) := by
  unfold findMerged
  rw [hmb, hrp]
  simp

/-- Witness for C4: `repoExact` resolves `feat` to the merge base `m`
and receives the exact verdict. -/
theorem c4_exact_when_tip_is_base_witness :
    findMerged repoExact [] "main".data "feat".data =
      (.ok (some { Branch := "feat".data
                   MergedSha := "m".data
                   Merged := true
                   SubjectScore := 1
                   DiffScore := 1
                   DiffSize := 0
                   NumCommits := 0
                   DiffCmd := [] }), []) :=
  c4_exact_when_tip_is_base repoExact [] "main".data "feat".data "m".data rfl rfl

/-! ## Diff-normalizer idempotence machinery (C6) -/

/-- The captured mode of a full index-line match is all digits. -/
theorem matchIndexFull_digits (l mode : Str) (h : matchIndexFull l = some mode) :
    mode.all Char.isDigit = true := by
  unfold matchIndexFull at h
  cases h1 : dropLit "index ".data l with
  | none => simp only [h1] at h; exact Option.noConfusion h
  | some cs1 =>
    simp only [h1] at h
    cases h2 : dropCount isHexLower 8 cs1 with
    | none => simp only [h2] at h; exact Option.noConfusion h
    | some cs2 =>
      simp only [h2] at h
      cases h3 : dropLit "..".data cs2 with
      | none => simp only [h3] at h; exact Option.noConfusion h
      | some cs3 =>
        simp only [h3] at h
        cases h4 : dropCount isHexLower 8 cs3 with
        | none => simp only [h4] at h; exact Option.noConfusion h
        | some cs4 =>
          simp only [h4] at h
          cases h5 : dropLit " ".data cs4 with
          | none => simp only [h5] at h; exact Option.noConfusion h
          | some m =>
            simp only [h5] at h
            by_cases h6 : m.length = 6 ∧ m.all Char.isDigit = true
            · rw [if_pos h6] at h; cases h; exact h6.2
            · rw [if_neg h6] at h; exact absurd h (by simp)

/-- The masked index line (with any captured mode) is a fixed point of
the replacement chain that follows the index rule. -/
theorem postIndexChain_fix (mode : Str) :
    hunkReplace (delFileReplace (newFileReplace (idxMask ++ mode))) = idxMask ++ mode := rfl

/-- The masked index line is a fixed point of the whole per-line
normalization. -/
theorem normalizeLine_idxMask (mode : Str) :
    normalizeLine (idxMask ++ mode) = idxMask ++ mode := rfl

/-- The masked hunk header (with any unmatched tail) is a fixed point of
the per-line normalization. -/
theorem normalizeLine_hunkMask (rest : Str) :
    normalizeLine (hunkMask ++ rest) = hunkMask ++ rest := rfl

/-- Shape of `normalizeLine` when the index rule fires. -/
theorem normalizeLine_of_idx (l mode : Str) (h : matchIndexFull l = some mode) :
    normalizeLine l = idxMask ++ mode := by
  simp only [normalizeLine, indexReplace, h]
  exact postIndexChain_fix mode

/-- Shape of `normalizeLine` when the new-file rule fires (the delete
rule then rewrites its output, which is the C7 collapse). -/
theorem normalizeLine_of_nf (l : Str) (h1 : matchIndexFull l = none)
    (h2 : newFileTest l = true) : normalizeLine l = dfMask := by
  simp only [normalizeLine, indexReplace, h1, newFileReplace, h2, if_true]
  decide

/-- Shape of `normalizeLine` when only the delete-file rule fires. -/
theorem normalizeLine_of_df (l : Str) (h1 : matchIndexFull l = none)
    (h2 : newFileTest l = false) (h3 : delFileTest l = true) :
    normalizeLine l = dfMask := by
  simp only [normalizeLine, indexReplace, h1, newFileReplace, h2, delFileReplace, h3,
    Bool.false_eq_true, if_false, if_true]
  decide

/-- Shape of `normalizeLine` when only the hunk-header rule fires. -/
theorem normalizeLine_of_hunk (l rest : Str) (h1 : matchIndexFull l = none)
    (h2 : newFileTest l = false) (h3 : delFileTest l = false)
    (h4 : hunkSplit l = some rest) : normalizeLine l = hunkMask ++ rest := by
  simp only [normalizeLine, indexReplace, h1, newFileReplace, h2, delFileReplace, h3,
    hunkReplace, h4, Bool.false_eq_true, if_false]

/-- Shape of `normalizeLine` when no rule fires. -/
theorem normalizeLine_of_none (l : Str) (h1 : matchIndexFull l = none)
    (h2 : newFileTest l = false) (h3 : delFileTest l = false)
    (h4 : hunkSplit l = none) : normalizeLine l = l := by
  simp only [normalizeLine, indexReplace, h1, newFileReplace, h2, delFileReplace, h3,
    hunkReplace, h4, Bool.false_eq_true, if_false]

/-- The per-line normalization is idempotent. -/
theorem normalizeLine_idem (l : Str) : normalizeLine (normalizeLine l) = normalizeLine l := by
  cases h1 : matchIndexFull l with
  | some mode =>
    rw [normalizeLine_of_idx l mode h1]
    exact normalizeLine_idxMask mode
  | none =>
    cases h2 : newFileTest l with
    | true =>
      rw [normalizeLine_of_nf l h1 h2]
      decide
    | false =>
      cases h3 : delFileTest l with
      | true =>
        rw [normalizeLine_of_df l h1 h2 h3]
        decide
      | false =>
        cases h4 : hunkSplit l with
        | some rest =>
          rw [normalizeLine_of_hunk l rest h1 h2 h3 h4]
          exact normalizeLine_hunkMask rest
        | none =>
          rw [normalizeLine_of_none l h1 h2 h3 h4]
          exact normalizeLine_of_none l h1 h2 h3 h4

/-- `splitNl` never returns the empty list. -/
theorem splitNl_ne_nil (s : Str) : splitNl s ≠ [] := by
  cases s with
  | nil => simp [splitNl]
  | cons c rest =>
    simp only [splitNl]
    split
    · simp
    · split <;> simp

/-- No piece produced by `splitNl` contains a newline. -/
theorem splitNl_no_nl (s : Str) : ∀ p ∈ splitNl s, ∀ c ∈ p, c ≠ '\n' := by
  induction s with
  | nil =>
    intro p hp c hc
    simp only [splitNl, List.mem_singleton] at hp
    subst hp
    simp at hc
  | cons a rest ih =>
    intro p hp c hc
    simp only [splitNl] at hp
    by_cases ha : a = '\n'
    · rw [if_pos ha] at hp
      rcases List.mem_cons.mp hp with rfl | hp
      · simp at hc
      · exact ih p hp c hc
    · rw [if_neg ha] at hp
      cases hsp : splitNl rest with
      | nil => exact absurd hsp (splitNl_ne_nil rest)
      | cons l ls =>
        rw [hsp] at hp
        rcases List.mem_cons.mp hp with rfl | hp
        · rcases List.mem_cons.mp hc with rfl | hc
          · exact ha
          · refine ih l ?_ c hc
            rw [hsp]
            exact List.mem_cons_self l ls
        · refine ih p ?_ c hc
          rw [hsp]
          exact List.mem_cons_of_mem l hp

/-- Splitting a newline-free prefix followed by an explicit newline. -/
theorem splitNl_append (l r : Str) (h : ∀ c ∈ l, c ≠ '\n') :
    splitNl (l ++ '\n' :: r) = l :: splitNl r := by
  induction l with
  | nil => simp [splitNl]
  | cons a l' ih =>
    have ha : a ≠ '\n' := h a (List.mem_cons_self a l')
    simp only [List.cons_append, splitNl, if_neg ha, List.append_eq]
    rw [ih (fun c hc => h c (List.mem_cons_of_mem a hc))]

/-- Joining with an extra empty final piece appends one newline. -/
theorem joinNl_concat_nil (x : Str) (tl : List Str) :
    joinNl ((x :: tl) ++ [[]]) = joinNl (x :: tl) ++ ['\n'] := by
  induction tl generalizing x with
  | nil => rfl
  | cons y tl' ih =>
    show x ++ '\n' :: joinNl ((y :: tl') ++ [[]]) = (x ++ '\n' :: joinNl (y :: tl')) ++ ['\n']
    rw [ih y]
    simp

/-- Splitting the join (with a trailing newline appended) recovers the
pieces plus one empty final piece. -/
theorem splitNl_joinNl (xs : List Str) (hne : xs ≠ [])
    (h : ∀ p ∈ xs, ∀ c ∈ p, c ≠ '\n') :
    splitNl (joinNl xs ++ ['\n']) = xs ++ [[]] := by
  induction xs with
  | nil => exact absurd rfl hne
  | cons x tl ih =>
    cases tl with
    | nil =>
      have hx := h x (List.mem_cons_self x [])
      show splitNl (x ++ '\n' :: []) = [x, []]
      rw [splitNl_append x [] hx]
      rfl
    | cons y tl' =>
      have hx := h x (List.mem_cons_self _ _)
      have hstep : joinNl (x :: y :: tl') ++ ['\n']
          = x ++ '\n' :: (joinNl (y :: tl') ++ ['\n']) := by
        show (x ++ '\n' :: joinNl (y :: tl')) ++ ['\n'] = _
        simp
      rw [hstep, splitNl_append x _ hx,
        ih (by simp) (fun p hp => h p (List.mem_cons_of_mem x hp))]
      rfl

/-- The tail returned by a hunk-header match consists of characters of
the original line. -/
theorem hunkSplit_mem (l rest : Str) (h : hunkSplit l = some rest) :
    ∀ c ∈ rest, c ∈ l := by
  rcases l with _ | ⟨a, _ | ⟨b, _ | ⟨sp, cs⟩⟩⟩
  · exact Option.noConfusion h
  · exact Option.noConfusion h
  · exact Option.noConfusion h
  · simp only [hunkSplit] at h
    by_cases habc : a = '@' ∧ b = '@' ∧ sp = ' '
    · rw [if_pos habc] at h
      by_cases ht : cs.takeWhile (fun c => !(c = '@')) ≠ [] ∧
          (cs.takeWhile (fun c => !(c = '@'))).getLast? = some ' '
      · rw [if_pos ht] at h
        cases hdw : cs.dropWhile (fun c => !(c = '@')) with
        | nil => simp only [hdw] at h; exact Option.noConfusion h
        | cons x ys =>
          cases ys with
          | nil => simp only [hdw] at h; exact Option.noConfusion h
          | cons y rest' =>
            simp only [hdw] at h
            by_cases hxy : x = '@' ∧ y = '@'
            · rw [if_pos hxy] at h
              cases h
              intro c hc
              have hmem : c ∈ cs.dropWhile (fun c => !(c = '@')) := by
                rw [hdw]
                exact List.mem_cons_of_mem _ (List.mem_cons_of_mem _ hc)
              have hcs : c ∈ cs := List.dropWhile_subset _ hmem
              exact List.mem_cons_of_mem _
                (List.mem_cons_of_mem _ (List.mem_cons_of_mem _ hcs))
            · rw [if_neg hxy] at h
              exact Option.noConfusion h
      · rw [if_neg ht] at h
        exact Option.noConfusion h
    · rw [if_neg habc] at h
      exact Option.noConfusion h

/-- Characters of the masks are not newlines. -/
theorem idxMask_no_nl : ∀ c ∈ idxMask, c ≠ '\n' := by decide

theorem dfMask_no_nl : ∀ c ∈ dfMask, c ≠ '\n' := by decide

theorem hunkMask_no_nl : ∀ c ∈ hunkMask, c ≠ '\n' := by decide

/-- Per-line normalization preserves newline-freeness. -/
theorem normalizeLine_no_nl (l : Str) (h : ∀ c ∈ l, c ≠ '\n') :
    ∀ c ∈ normalizeLine l, c ≠ '\n' := by
  cases h1 : matchIndexFull l with
  | some mode =>
    rw [normalizeLine_of_idx l mode h1]
    intro c hc
    rcases List.mem_append.mp hc with hm | hm
    · exact idxMask_no_nl c hm
    · have hdig := matchIndexFull_digits l mode h1
      have : Char.isDigit c = true := List.all_eq_true.mp hdig c hm
      intro hcon
      subst hcon
      simp at this
  | none =>
    cases h2 : newFileTest l with
    | true =>
      rw [normalizeLine_of_nf l h1 h2]
      exact dfMask_no_nl
    | false =>
      cases h3 : delFileTest l with
      | true =>
        rw [normalizeLine_of_df l h1 h2 h3]
        exact dfMask_no_nl
      | false =>
        cases h4 : hunkSplit l with
        | some rest =>
          rw [normalizeLine_of_hunk l rest h1 h2 h3 h4]
          intro c hc
          rcases List.mem_append.mp hc with hm | hm
          · exact hunkMask_no_nl c hm
          · exact h c (hunkSplit_mem l rest h4 c hm)
        | none =>
          rw [normalizeLine_of_none l h1 h2 h3 h4]
          exact h

/-! ## The idempotence claim (C6) -/

/-- C6 (counterexample): normalizing a one-line diff twice does not
equal normalizing it once — the second pass appends another trailing
newline. -/
theorem c6_counterexample :
    removeGitShaFromGitDiff
        (removeGitShaFromGitDiff "index 650fc525..aa3fa82c 100644".data)
      ≠ removeGitShaFromGitDiff "index 650fc525..aa3fa82c 100644".data := by decide

/-- C6 (amended): the per-line masking is idempotent, but the
normalizer unconditionally appends one newline, so normalizing twice
equals normalizing once plus exactly one extra trailing newline. -/
theorem c6_normalize_twice (d : Str) :
    removeGitShaFromGitDiff (removeGitShaFromGitDiff d)
      = removeGitShaFromGitDiff d ++ ['\n'] := by
  unfold removeGitShaFromGitDiff
  have hnl : ∀ p ∈ (splitNl d).map normalizeLine, ∀ c ∈ p, c ≠ '\n' := by
    intro p hp
    rcases List.mem_map.mp hp with ⟨q, hq, rfl⟩
    exact normalizeLine_no_nl q (splitNl_no_nl d q hq)
  have hne : (splitNl d).map normalizeLine ≠ [] := by
    intro hcon
    exact splitNl_ne_nil d (List.map_eq_nil_iff.mp hcon)
  rw [splitNl_joinNl _ hne hnl, List.map_append]
  have hmm : ((splitNl d).map normalizeLine).map normalizeLine
      = (splitNl d).map normalizeLine := by
    rw [List.map_map]
    exact List.map_congr_left (fun q _ => normalizeLine_idem q)
  rw [hmm]
  have hnilmap : ([([] : Str)]).map normalizeLine = [([] : Str)] := rfl
  rw [hnilmap]
  obtain ⟨x, tl, hxtl⟩ : ∃ x tl, (splitNl d).map normalizeLine = x :: tl := by
    cases hq : (splitNl d).map normalizeLine with
    | nil => exact absurd hq hne
    | cons x tl => exact ⟨x, tl, rfl⟩
  rw [hxtl, joinNl_concat_nil]

/-! ## Best-match loop lemmas -/

/-- With a coherent cache, the cache-threading loop computes exactly the
cache-free best match, and keeps the cache coherent. -/
theorem trunkScan_spec (repo : GitRepo) (subj : Str) (l : List Str) :
    ∀ (cache : Cache) (hs : ℚ) (hd : Option CommitDiff), CacheOK repo cache →
      (trunkScan repo subj l cache hs hd).2 = bestMatch repo subj l hs hd ∧
        CacheOK repo (trunkScan repo subj l cache hs hd).1 := by
  induction l with
  | nil => intro cache hs hd hok; exact ⟨rfl, hok⟩
  | cons c rest ih =>
    intro cache hs hd hok
    obtain ⟨hfst, hok'⟩ := getCommitDiff_of_cacheOK repo cache c hok
    rcases hgc : getCommitDiff repo cache c with ⟨r, cache', n⟩
    rw [hgc] at hfst hok'
    cases r with
    | none =>
      have h2 : trunkScan repo subj (c :: rest) cache hs hd = (cache', none) := by
        simp only [trunkScan, hgc]
      have h3 : bestMatch repo subj (c :: rest) hs hd = none := by
        simp only [bestMatch, ← hfst]
      rw [h2, h3]
      exact ⟨rfl, hok'⟩
    | some cd =>
      simp only [trunkScan, bestMatch, hgc, ← hfst]
      by_cases hsc : jaroWinkler subj cd.Subject > hs
      · rw [if_pos hsc, if_pos hsc]
        exact ih cache' _ _ hok'
      · rw [if_neg hsc, if_neg hsc]
        exact ih cache' _ _ hok'

/-- Once a best candidate is recorded, the loop never forgets it. -/
theorem bestMatch_acc_some (repo : GitRepo) (subj : Str) (l : List Str) :
    ∀ (hs : ℚ) (hd : CommitDiff) (res : ℚ × Option CommitDiff),
      bestMatch repo subj l hs (some hd) = some res → ∃ hi, res.2 = some hi := by
  induction l with
  | nil =>
    intro hs hd res h
    simp only [bestMatch, Option.some.injEq] at h
    subst h
    exact ⟨hd, rfl⟩
  | cons c rest ih =>
    intro hs hd res h
    cases hfp : fpOf repo c with
    | none => simp only [bestMatch, hfp] at h; exact Option.noConfusion h
    | some cd =>
      simp only [bestMatch, hfp] at h
      by_cases hsc : jaroWinkler subj cd.Subject > hs
      · rw [if_pos hsc] at h
        exact ih _ _ _ h
      · rw [if_neg hsc] at h
        exact ih _ _ _ h

/-- If the loop ends with no best candidate, the running maximum was
never updated. -/
theorem bestMatch_none_score (repo : GitRepo) (subj : Str) (l : List Str) :
    ∀ (hs : ℚ) (res : ℚ × Option CommitDiff),
      bestMatch repo subj l hs none = some res → res.2 = none → res.1 = hs := by
  induction l with
  | nil =>
    intro hs res h _
    simp only [bestMatch, Option.some.injEq] at h
    subst h
    rfl
  | cons c rest ih =>
    intro hs res h hnone
    cases hfp : fpOf repo c with
    | none => simp only [bestMatch, hfp] at h; exact Option.noConfusion h
    | some cd =>
      simp only [bestMatch, hfp] at h
      by_cases hsc : jaroWinkler subj cd.Subject > hs
      · rw [if_pos hsc] at h
        obtain ⟨hi, hhi⟩ := bestMatch_acc_some repo subj rest _ cd res h
        rw [hnone] at hhi
        exact Option.noConfusion hhi
      · rw [if_neg hsc] at h
        exact ih hs res h hnone

/-- When every trunk fingerprint is available, the loop succeeds. -/
theorem bestMatch_isSome (repo : GitRepo) (subj : Str) (l : List Str) :
    ∀ (hs : ℚ) (hd : Option CommitDiff), (∀ c ∈ l, (fpOf repo c).isSome) →
      (bestMatch repo subj l hs hd).isSome := by
  induction l with
  | nil => intro hs hd _; rfl
  | cons c rest ih =>
    intro hs hd hfp
    obtain ⟨cd, hcd⟩ := Option.isSome_iff_exists.mp (hfp c (List.mem_cons_self c rest))
    simp only [bestMatch, hcd]
    by_cases hsc : jaroWinkler subj cd.Subject > hs
    · rw [if_pos hsc]
      exact ih _ _ (fun x hx => hfp x (List.mem_cons_of_mem c hx))
    · rw [if_neg hsc]
      exact ih _ _ (fun x hx => hfp x (List.mem_cons_of_mem c hx))

/-- The loop ends with no best candidate iff no commit scores strictly
above the initial maximum. -/
theorem bestMatch_none_iff (repo : GitRepo) (subj : Str) (l : List Str) :
    ∀ (hs : ℚ), (∀ c ∈ l, (fpOf repo c).isSome) →
      (bestMatch repo subj l hs none = some (hs, none) ↔
        ∀ c ∈ l, ∀ cd, fpOf repo c = some cd → jaroWinkler subj cd.Subject ≤ hs) := by
  induction l with
  | nil =>
    intro hs _
    constructor
    · intro _ c hc
      exact absurd hc (List.not_mem_nil c)
    · intro _
      rfl
  | cons c rest ih =>
    intro hs hfp
    obtain ⟨cd, hcd⟩ := Option.isSome_iff_exists.mp (hfp c (List.mem_cons_self c rest))
    simp only [bestMatch, hcd]
    by_cases hsc : jaroWinkler subj cd.Subject > hs
    · rw [if_pos hsc]
      constructor
      · intro h
        obtain ⟨hi, hhi⟩ := bestMatch_acc_some repo subj rest _ cd _ h
        exact Option.noConfusion hhi
      · intro hall
        exact absurd (hall c (List.mem_cons_self c rest) cd hcd) (not_le.mpr hsc)
    · rw [if_neg hsc]
      have hle : jaroWinkler subj cd.Subject ≤ hs := not_lt.mp hsc
      rw [ih hs (fun x hx => hfp x (List.mem_cons_of_mem c hx))]
      constructor
      · intro hall x hx cd' hcd'
        rcases List.mem_cons.mp hx with rfl | hx
        · rw [hcd] at hcd'
          cases hcd'
          exact hle
        · exact hall x hx cd' hcd'
      · intro hall x hx cd' hcd'
        exact hall x (List.mem_cons_of_mem c hx) cd' hcd'

/-! ## The non-exact path of `findMerged`, reduced to `bestMatch` -/

/-- Master lemma: with a coherent cache and successful oracle calls up
to the loop, the non-exact path of `findMerged` computes the cache-free
best match over the trunk commits (scored against the representative
fingerprint `fp0` of the first branch commit) and dispatches through
`postScan` with the pre-loop combined diff `cd`. -/
theorem findMerged_eq (repo : GitRepo) (cache : Cache) (cur br : Str)
    (base tip b0 : Str) (brest commits : List Str) (fp0 : CommitDiff) (cd : Str)
    (hok : CacheOK repo cache)
    (hmb : repo.mergeBase cur br = some base)
    (hrp : repo.revParse br = some tip)
    (hne : base ≠ tip)
    (hlogb : repo.log base br = some (b0 :: brest))
    (hfp0 : fpOf repo b0 = some fp0)
    (hcd : (if brest = [] then some ([] : Str) else repo.diff base br) = some cd)
    (hlogt : repo.log base cur = some commits) :
    (findMerged repo cache cur br).1 =
      match bestMatch repo fp0.Subject commits 0 none with
      | none => .fail
      | some res => postScan repo br base (b0 :: brest) fp0 cd res := by
  obtain ⟨hfst, hok1⟩ := getCommitDiff_of_cacheOK repo cache b0 hok
  rcases hgc : getCommitDiff repo cache b0 with ⟨r, cache1, n⟩
  rw [hgc] at hfst hok1
  have hr : r = some fp0 := hfst.trans hfp0
  subst hr
  obtain ⟨hts, hok2⟩ := trunkScan_spec repo fp0.Subject commits cache1 0 none hok1
  rcases hscan : trunkScan repo fp0.Subject commits cache1 0 none with ⟨cache2, res2⟩
  rw [hscan] at hts
  simp only [findMerged, hmb, hrp, if_neg hne, hlogb, hgc, hcd, hlogt, hscan]
  rw [← hts]
  cases res2 with
  | none => rfl
  | some res => rfl

/-! ## Multi-commit comparison and normalization (C1) -/

/-- C1 (counterexample): in `repoHunk` the two combined diffs differ
only in hunk-header line numbers, so their normalized forms are equal
(a normalized comparison would score exactly 1); yet the verdict's diff
score is NOT the score of the normalized comparison — `findMerged`
compares the raw combined diffs, which it never passes through the
normalizer. -/
theorem c1_counterexample :
    removeGitShaFromGitDiff hunkDiffB = removeGitShaFromGitDiff hunkDiffA ∧
    ((findMerged repoHunk [] "main".data "feat".data).1.diffScoreOf).isSome = true ∧
    (findMerged repoHunk [] "main".data "feat".data).1.diffScoreOf ≠
      some (jaroWinkler (removeGitShaFromGitDiff hunkDiffB)
        (removeGitShaFromGitDiff hunkDiffA)) := by decide

/-- C1 (amended): for a candidate with more than one commit since the
merge base, `findMerged` compares the candidate's RAW combined diff
`base..branch` against the best trunk commit's RAW combined diff
`bestMatch^..bestMatch` (neither normalized), so that a branch whose raw
combined diff exactly equals the trunk commit's raw combined diff yields
diff similarity 1 and a commit count equal to the number of branch
commits. -/
theorem c1_squash_equal_raw_diffs (repo : GitRepo) (cache : Cache)
    (cur br base tip b0 : Str) (brest commits : List Str)
    (fp0 hi : CommitDiff) (hs : ℚ) (D : Str)
    (hok : CacheOK repo cache)
    (hmb : repo.mergeBase cur br = some base)
    (hrp : repo.revParse br = some tip)
    (hne : base ≠ tip)
    (hlogb : repo.log base br = some (b0 :: brest))
    (hmulti : brest ≠ [])
    (hfp0 : fpOf repo b0 = some fp0)
    (hD : repo.diff base br = some D)
    (hDne : D ≠ [])
    (hlogt : repo.log base cur = some commits)
    (hbest : bestMatch repo fp0.Subject commits 0 none = some (hs, some hi))
    (htd : repo.diff (hi.Sha ++ "^".data) hi.Sha = some D) :
    (findMerged repo cache cur br).1 =
      .ok (some { Branch := br
                  MergedSha := b0
                  Merged := false
                  SubjectScore := hs
                  DiffScore := 1
                  DiffSize := D.length
                  NumCommits := brest.length + 1
                  DiffCmd := meldDiffCmd base br hi.Sha }) := by
  have hcd : (if brest = [] then some ([] : Str) else repo.diff base br) = some D := by
    rw [if_neg hmulti]
    exact hD
  rw [findMerged_eq repo cache cur br base tip b0 brest commits fp0 D hok hmb hrp hne
    hlogb hfp0 hcd hlogt, hbest]
  simp only [postScan, if_neg hDne, htd, jaroWinkler_self, List.length_cons]
  rw [fpOf_sha repo b0 fp0 hfp0]

/-- Witness for C1: `repoMulti` is a two-commit squash-merge with equal
raw combined diffs; the verdict scores diff similarity 1 and counts 2
commits. -/
theorem c1_squash_equal_raw_diffs_witness :
    (findMerged repoMulti [] "main".data "feat".data).1 =
      .ok (some { Branch := "feat".data
                  MergedSha := "c2".data
                  Merged := false
                  SubjectScore := 1
                  DiffScore := 1
                  DiffSize := 2
                  NumCommits := 2
                  DiffCmd := meldDiffCmd "b".data "feat".data "t1".data }) :=
  c1_squash_equal_raw_diffs repoMulti [] "main".data "feat".data "b".data "c2".data
    "c2".data ["c1".data] ["t1".data]
    ⟨"c2".data, "s".data, ['d', '\n']⟩ ⟨"t1".data, "s".data, ['d', '\n']⟩ 1 "+p".data
    (fun _ _ h => Option.noConfusion h) rfl rfl (by decide) rfl (by decide) (by decide)
    rfl (by decide) rfl (by decide) (by decide)

/-! ## MergedSha of fuzzy verdicts (C2) -/

/-- C2 (counterexample): in `repoSingle` the best-matching trunk commit
is `t1` (the only trunk commit, with subject similarity 1), yet the
fuzzy verdict's MergedSha is the candidate branch's own commit `c1`. -/
theorem c2_counterexample :
    bestMatch repoSingle "fix login bug".data ["t1".data] 0 none
      = some (1, some ⟨"t1".data, "fix login bug".data, ['d', '\n']⟩) ∧
    (findMerged repoSingle [] "main".data "feat".data).1.mergedShaOf = some "c1".data ∧
    ("c1".data : Str) ≠ "t1".data := by decide

/-- C2 (amended): every fuzzy (non-exact) verdict's MergedSha field is
the sha of `branchCommits[0]` — a commit of the candidate branch itself —
not the best-matching trunk commit (the trunk commit's sha appears only
inside the DiffCmd string). -/
theorem c2_mergedsha_is_branch_head (repo : GitRepo) (cache : Cache)
    (cur br base tip b0 : Str) (brest commits : List Str) (fp0 : CommitDiff)
    (cd : Str) (pm : PotentialMerge)
    (hok : CacheOK repo cache)
    (hmb : repo.mergeBase cur br = some base)
    (hrp : repo.revParse br = some tip)
    (hne : base ≠ tip)
    (hlogb : repo.log base br = some (b0 :: brest))
    (hfp0 : fpOf repo b0 = some fp0)
    (hcd : (if brest = [] then some ([] : Str) else repo.diff base br) = some cd)
    (hlogt : repo.log base cur = some commits)
    (h : (findMerged repo cache cur br).1 = .ok (some pm)) :
    pm.MergedSha = b0 ∧ pm.Merged = false := by
  rw [findMerged_eq repo cache cur br base tip b0 brest commits fp0 cd hok hmb hrp hne
    hlogb hfp0 hcd hlogt] at h
  cases hbm : bestMatch repo fp0.Subject commits 0 none with
  | none =>
    simp only [hbm] at h
    exact FMOut.noConfusion h
  | some res =>
    simp only [hbm] at h
    obtain ⟨hs, hd⟩ := res
    cases hd with
    | none =>
      simp only [postScan] at h
      injection h with h'
      exact Option.noConfusion h'
    | some hi =>
      simp only [postScan] at h
      by_cases hcdnil : cd = []
      · rw [if_pos hcdnil] at h
        by_cases hlen : (b0 :: brest).length = 1
        · rw [if_pos hlen] at h
          injection h with h'
          injection h' with h''
          subst h''
          exact ⟨fpOf_sha repo b0 fp0 hfp0, rfl⟩
        · rw [if_neg hlen] at h
          exact FMOut.noConfusion h
      · rw [if_neg hcdnil] at h
        cases htd : repo.diff (hi.Sha ++ "^".data) hi.Sha with
        | none =>
          simp only [htd] at h
          exact FMOut.noConfusion h
        | some tc =>
          simp only [htd] at h
          injection h with h'
          injection h' with h''
          subst h''
          exact ⟨fpOf_sha repo b0 fp0 hfp0, rfl⟩

/-- Witness for C2: the verdict of `repoSingle` carries the branch-side
sha `c1` and is fuzzy. -/
theorem c2_mergedsha_is_branch_head_witness :
    pmSingleOut.MergedSha = "c1".data ∧ pmSingleOut.Merged = false :=
  c2_mergedsha_is_branch_head repoSingle [] "main".data "feat".data "b".data "c1".data
    "c1".data [] ["t1".data] ⟨"c1".data, "fix login bug".data, ['d', '\n']⟩ [] pmSingleOut
    (fun _ _ h => Option.noConfusion h) rfl rfl (by decide) rfl (by decide) rfl rfl
    (by decide)

/-! ## The representative commit (C5) -/

/-- C5 (counterexample): `repoMulti` lists the candidate's new commits
newest-first as `[c2, c1]` (reverse-chronological history order), so the
EARLIEST new commit is the last element `c1`; yet the representative
whose sha the verdict carries is element 0, the newest commit `c2`. -/
theorem c5_counterexample :
    repoMulti.log "b".data "feat".data = some ["c2".data, "c1".data] ∧
    (["c2".data, "c1".data] : List Str).getLast? = some "c1".data ∧
    (findMerged repoMulti [] "main".data "feat".data).1.mergedShaOf = some "c2".data ∧
    ("c2".data : Str) ≠ "c1".data := by decide

/-- C5 (amended): the representative fingerprint used by `findMerged` is
that of `branchCommits[0]`, which in the reverse-chronological order of
the history traversal is the MOST RECENT new commit (the branch tip),
not the earliest; for a single-commit branch the whole verdict is built
from that head fingerprint. -/
theorem c5_representative_is_head (repo : GitRepo) (cache : Cache)
    (cur br base tip b0 : Str) (commits : List Str) (fp0 hi : CommitDiff) (hs : ℚ)
    (hok : CacheOK repo cache)
    (hmb : repo.mergeBase cur br = some base)
    (hrp : repo.revParse br = some tip)
    (hne : base ≠ tip)
    (hlogb : repo.log base br = some [b0])
    (hfp0 : fpOf repo b0 = some fp0)
    (hlogt : repo.log base cur = some commits)
    (hbest : bestMatch repo fp0.Subject commits 0 none = some (hs, some hi)) :
    (findMerged repo cache cur br).1 =
      .ok (some { Branch := br
                  MergedSha := b0
                  Merged := false
                  SubjectScore := hs
                  DiffScore := jaroWinkler fp0.Diff hi.Diff
                  DiffSize := fp0.Diff.length
                  NumCommits := 1
                  DiffCmd := meldShowCmd br hi.Sha }) := by
  have hcd : (if ([] : List Str) = [] then some ([] : Str) else repo.diff base br)
      = some [] := rfl
  rw [findMerged_eq repo cache cur br base tip b0 [] commits fp0 [] hok hmb hrp hne
    hlogb hfp0 hcd hlogt, hbest]
  simp only [postScan, List.length_cons, List.length_nil, if_true]
  rw [fpOf_sha repo b0 fp0 hfp0]

/-- Witness for C5: in `repoSingle`, the verdict is built from the
fingerprint of the single (head) branch commit `c1`. -/
theorem c5_representative_is_head_witness :
    (findMerged repoSingle [] "main".data "feat".data).1 =
      .ok (some { Branch := "feat".data
                  MergedSha := "c1".data
                  Merged := false
                  SubjectScore := 1
                  DiffScore := jaroWinkler ['d', '\n'] ['d', '\n']
                  DiffSize := 2
                  NumCommits := 1
                  DiffCmd := meldShowCmd "feat".data "t1".data }) :=
  c5_representative_is_head repoSingle [] "main".data "feat".data "b".data "c1".data
    "c1".data ["t1".data] ⟨"c1".data, "fix login bug".data, ['d', '\n']⟩
    ⟨"t1".data, "fix login bug".data, ['d', '\n']⟩ 1
    (fun _ _ h => Option.noConfusion h) rfl rfl (by decide) rfl (by decide) rfl (by decide)

/-! ## Absence of a verdict (C8) -/

/-- C8 (counterexample): `repoNoSim` has a non-empty trunk commit list
(`[t1]`) in a non-exact comparison, yet `findMerged` returns no verdict
and no error, because `t1`'s subject similarity to the candidate is 0
and the loop only records a best match on a strictly positive
improvement over the initial 0. -/
theorem c8_counterexample :
    repoNoSim.log "b".data "main".data = some ["t1".data] ∧
    repoNoSim.mergeBase "main".data "feat".data = some "b".data ∧
    repoNoSim.revParse "feat".data = some "c1".data ∧
    ("b".data : Str) ≠ "c1".data ∧
    (findMerged repoNoSim [] "main".data "feat".data).1 = .ok none := by decide

/-- C8 (amended): in the non-exact path (all oracle queries up to the
loop succeeding, every trunk fingerprint available), the verdict is
absent with no error if and only if NO trunk commit achieved subject
similarity strictly greater than 0 against the representative subject —
in particular when the trunk commit list is empty, but also when all
its subjects are completely dissimilar. -/
theorem c8_absent_iff_no_positive_score (repo : GitRepo) (cache : Cache)
    (cur br base tip b0 : Str) (brest commits : List Str) (fp0 : CommitDiff) (cd : Str)
    (hok : CacheOK repo cache)
    (hmb : repo.mergeBase cur br = some base)
    (hrp : repo.revParse br = some tip)
    (hne : base ≠ tip)
    (hlogb : repo.log base br = some (b0 :: brest))
    (hfp0 : fpOf repo b0 = some fp0)
    (hcd : (if brest = [] then some ([] : Str) else repo.diff base br) = some cd)
    (hlogt : repo.log base cur = some commits)
    (hfp : ∀ c ∈ commits, (fpOf repo c).isSome) :
    ((findMerged repo cache cur br).1 = .ok none ↔
      ∀ c ∈ commits, ∀ cdt, fpOf repo c = some cdt →
        jaroWinkler fp0.Subject cdt.Subject ≤ 0) := by
  rw [findMerged_eq repo cache cur br base tip b0 brest commits fp0 cd hok hmb hrp hne
    hlogb hfp0 hcd hlogt]
  obtain ⟨res, hres⟩ := Option.isSome_iff_exists.mp
    (bestMatch_isSome repo fp0.Subject commits 0 none hfp)
  simp only [hres]
  obtain ⟨rs, rd⟩ := res
  constructor
  · intro h
    cases rd with
    | none =>
      have hrs : rs = 0 := bestMatch_none_score repo fp0.Subject commits 0 (rs, none) hres rfl
      subst hrs
      exact (bestMatch_none_iff repo fp0.Subject commits 0 hfp).mp hres
    | some hi =>
      exfalso
      simp only [postScan] at h
      by_cases hcdnil : cd = []
      · rw [if_pos hcdnil] at h
        by_cases hlen : (b0 :: brest).length = 1
        · rw [if_pos hlen] at h
          injection h with h'
          exact Option.noConfusion h'
        · rw [if_neg hlen] at h
          exact FMOut.noConfusion h
      · rw [if_neg hcdnil] at h
        cases htd : repo.diff (hi.Sha ++ "^".data) hi.Sha with
        | none =>
          simp only [htd] at h
          exact FMOut.noConfusion h
        | some tc =>
          simp only [htd] at h
          injection h with h'
          exact Option.noConfusion h'
  · intro hall
    have hb : bestMatch repo fp0.Subject commits 0 none = some (0, none) :=
      (bestMatch_none_iff repo fp0.Subject commits 0 hfp).mpr hall
    rw [hres] at hb
    injection hb with hb'
    injection hb' with hb1 hb2
    subst hb1
    subst hb2
    rfl

/-- Witness for C8: `repoNoSim` satisfies every hypothesis; its single
trunk commit scores 0 against the candidate subject, and the verdict is
absent. -/
theorem c8_absent_iff_no_positive_score_witness :
    (findMerged repoNoSim [] "main".data "feat".data).1 = .ok none :=
  (c8_absent_iff_no_positive_score repoNoSim [] "main".data "feat".data "b".data
    "c1".data "c1".data [] ["t1".data] ⟨"c1".data, "aaa".data, ['d', '\n']⟩ []
    (fun _ _ h => Option.noConfusion h) rfl rfl (by decide) rfl (by decide) rfl rfl
    (by decide)).mpr
    (by
      intro c hc cdt hcdt
      have hc1 : c = "t1".data := List.mem_singleton.mp hc
      subst hc1
      have h2 : fpOf repoNoSim "t1".data = some ⟨"t1".data, "zzz".data, ['d', '\n']⟩ := by
        decide
      rw [h2] at hcdt
      injection hcdt with he
      subst he
      decide)

end GitBranchCleanup
